import Mathlib

/-!
Shallow embedding of the vgo-kit utility packages (i18n translator,
Redis cache facade, sliding-window rate limiter, gRPC client manager)
and proofs about them.

Go maps are embedded as functions `String → Option β` (or `String → List β`
where Go reads a missing key as the empty slice), Go `int`/Unix timestamps
as `Int`, fallible operations as `Except`, and external effects (Redis
commands, gRPC dialing, JSON codecs) as explicit state or function
parameters.
-/

namespace VgoKit

/-- Pointwise update of an optional map, mirroring Go `m[k] = v` /
`delete(m, k)`. -/
def mupd {β : Type} (f : String → Option β) (k : String) (v : Option β) :
    String → Option β :=
  fun x => if x = k then v else f x

/-- Pointwise update of a list-valued map, mirroring Go `m[k] = slice`
(a missing key reads as the empty slice). -/
def lupd {β : Type} (f : String → List β) (k : String) (v : List β) :
    String → List β :=
  fun x => if x = k then v else f x

/-! ## i18n translator (src/unnamed/part_000) -/

namespace I18n

/-- `DefaultLanguage = LanguageEnglish = "en"` from the source. -/
def defaultLanguage : String := "en"

/-- The `translator` struct: current language plus
`map[SupportedLanguage]map[string]string`. -/
structure TranslatorState where
  currentLang : String
  translations : String → Option (String → Option String)

/-- The two-level map read `t.translations[lang][key]` used by
`TranslateWithLang`: `none` when either the language table or the key is
missing. -/
def lookupLang (t : TranslatorState) (lang key : String) : Option String :=
  match t.translations lang with
  | some langMap => langMap key
  | none => none

/-- `translator.TranslateWithLang`. The variadic `args ...interface{}` is
a list of opaque arguments and `fmt.Sprintf` is the parameter `sprintf`;
when `args` is empty the stored text is returned verbatim, exactly as in
the source. -/
def translateWithLang (sprintf : String → List String → String)
    (t : TranslatorState) (lang key : String) (args : List String) : String :=
  match lookupLang t lang key with
  | some text => if 0 < args.length then sprintf text args else text
  | none =>
    if lang ≠ defaultLanguage then
      match lookupLang t defaultLanguage key with
      | some text => if 0 < args.length then sprintf text args else text
      | none => key
    else key

/-- `translator.Translate`: delegates to `TranslateWithLang` at the
current language. -/
def translate (sprintf : String → List String → String)
    (t : TranslatorState) (key : String) (args : List String) : String :=
  translateWithLang sprintf t t.currentLang key args

end I18n

/-- Concrete translator used to instantiate the i18n theorems: Chinese
current language, a Chinese table with "hello", an English table with
"hello" and "bye". -/
def exTranslator : I18n.TranslatorState :=
  { currentLang := "zh"
    translations := fun l =>
      if l = "zh" then
        some (fun k => if k = "hello" then some "nihao" else none)
      else if l = "en" then
        some (fun k =>
          if k = "hello" then some "hello!"
          else if k = "bye" then some "bye!" else none)
      else none }

/-- A concrete stand-in for `fmt.Sprintf` (never reached with empty args). -/
def exSprintf : String → List String → String := fun s _ => s

/-- C2: `TranslateWithLang` returns the string stored for the key in the
requested language's table when one exists; when it does not exist and the
requested language is not the default language `"en"`, it returns the
string stored in the default language's table when that exists. -/
theorem c2_translate_with_lang_fallback :
    ∀ (sprintf : String → List String → String) (t : I18n.TranslatorState)
      (lang key text : String),
      (I18n.lookupLang t lang key = some text →
        I18n.translateWithLang sprintf t lang key [] = text)
      ∧ (I18n.lookupLang t lang key = none →
          lang ≠ I18n.defaultLanguage →
          I18n.lookupLang t I18n.defaultLanguage key = some text →
          I18n.translateWithLang sprintf t lang key [] = text) := by
  intro sprintf t lang key text
  constructor
  · intro h
    simp [I18n.translateWithLang, h]
  · intro h hne hd
    simp [I18n.translateWithLang, h, hne, hd]

/-- Witness for C2 at the concrete translator: a direct hit in the
requested language and a fallback hit in the default language. -/
theorem c2_translate_with_lang_fallback_witness :
    I18n.translateWithLang exSprintf exTranslator "zh" "hello" [] = "nihao"
    ∧ I18n.translateWithLang exSprintf exTranslator "zh" "bye" [] = "bye!" :=
  ⟨(c2_translate_with_lang_fallback exSprintf exTranslator "zh" "hello"
      "nihao").1 rfl,
   (c2_translate_with_lang_fallback exSprintf exTranslator "zh" "bye"
      "bye!").2 rfl (by decide) rfl⟩

/-- C8: when a key is stored neither in the requested language's table nor
in the default language's table, `TranslateWithLang` (and `Translate`, at
the current language) returns the key itself. -/
theorem c8_untranslated_key_returned :
    (∀ (sprintf : String → List String → String) (t : I18n.TranslatorState)
       (lang key : String),
       I18n.lookupLang t lang key = none →
       I18n.lookupLang t I18n.defaultLanguage key = none →
       I18n.translateWithLang sprintf t lang key [] = key)
    ∧ (∀ (sprintf : String → List String → String) (t : I18n.TranslatorState)
         (key : String),
         I18n.lookupLang t t.currentLang key = none →
         I18n.lookupLang t I18n.defaultLanguage key = none →
         I18n.translate sprintf t key [] = key) := by
  have base : ∀ (sprintf : String → List String → String)
      (t : I18n.TranslatorState) (lang key : String),
      I18n.lookupLang t lang key = none →
      I18n.lookupLang t I18n.defaultLanguage key = none →
      I18n.translateWithLang sprintf t lang key [] = key := by
    intro sprintf t lang key h hd
    by_cases hl : lang = I18n.defaultLanguage
    · subst hl
      simp [I18n.translateWithLang, h]
    · simp [I18n.translateWithLang, h, hd, hl]
  exact ⟨base, fun sprintf t key h hd =>
    base sprintf t t.currentLang key h hd⟩

/-- Witness for C8: a key absent from every table comes back unchanged,
through both entry points. -/
theorem c8_untranslated_key_returned_witness :
    I18n.translateWithLang exSprintf exTranslator "zh" "missing" []
      = "missing"
    ∧ I18n.translate exSprintf exTranslator "missing" [] = "missing" :=
  ⟨c8_untranslated_key_returned.1 exSprintf exTranslator "zh" "missing"
      rfl rfl,
   c8_untranslated_key_returned.2 exSprintf exTranslator "missing" rfl rfl⟩

/-! ## Redis cache facade (src/cache/cache.go) -/

namespace Cache

/-- The Redis string store behind `RedisCache`, modelled as a key-to-bytes
map (bytes as `String`). -/
structure RedisStore where
  data : String → Option String

/-- `RedisCache.Set`: `json.Marshal` the value (the abstract `marshal`
parameter, `none` = marshal error) and `SET key data expiration`.  The
expiration is passed through to Redis and does not affect the key-to-bytes
map model. -/
def cacheSet {α : Type} (marshal : α → Option String) (st : RedisStore)
    (key : String) (value : α) (expiration : Int) :
    Except String RedisStore :=
  match marshal value with
  | none => .error "failed to marshal value"
  | some data =>
    let _ := expiration
    .ok ⟨mupd st.data key (some data)⟩

/-- `RedisCache.Get`: `GET key` (`redis.Nil` error when the key is absent)
then `json.Unmarshal` into the destination (the abstract `unmarshal`
parameter, `none` = unmarshal error). -/
def cacheGet {α : Type} (unmarshal : String → Option α) (st : RedisStore)
    (key : String) : Except String α :=
  match st.data key with
  | none => .error "redis: nil"
  | some data =>
    match unmarshal data with
    | none => .error "failed to unmarshal value"
    | some v => .ok v

end Cache

/-- C4: `Set(key, v)` stores the JSON marshaling of `v` under `key`, and a
subsequent `Get(key, dest)` unmarshals exactly those stored bytes, so a
`Get` after a `Set` of the same key recovers the JSON round-trip of `v`. -/
theorem c4_cache_set_get_roundtrip :
    ∀ {α : Type} (marshal : α → Option String)
      (unmarshal : String → Option α) (st : Cache.RedisStore)
      (key : String) (v : α) (data : String) (exp : Int),
      marshal v = some data →
      ∃ st', Cache.cacheSet marshal st key v exp = .ok st'
        ∧ st'.data key = some data
        ∧ Cache.cacheGet unmarshal st' key =
            (match unmarshal data with
             | none => .error "failed to unmarshal value"
             | some w => .ok w) := by
  intro α marshal unmarshal st key v data exp h
  refine ⟨⟨mupd st.data key (some data)⟩, ?_, ?_, ?_⟩
  · simp [Cache.cacheSet, h]
  · simp [mupd]
  · simp [Cache.cacheGet, mupd]

/-- Witness for C4 at `α = String` with identity JSON codecs: a `Get`
after a `Set` of "42" returns "42". -/
theorem c4_cache_set_get_roundtrip_witness :
    ∃ st', Cache.cacheSet (fun s : String => some s) ⟨fun _ => none⟩
        "answer" "42" 60 = .ok st'
      ∧ st'.data "answer" = some "42"
      ∧ Cache.cacheGet (fun s : String => some s) st' "answer" = .ok "42" := by
  obtain ⟨st', h1, h2, h3⟩ :=
    c4_cache_set_get_roundtrip (fun s : String => some s)
      (fun s : String => some s) ⟨fun _ => none⟩ "answer" "42" "42" 60 rfl
  exact ⟨st', h1, h2, by rw [h3]⟩

/-! ## Sliding-window rate limiter (src/unnamed/part_003)

Timestamps are Unix seconds as `Int`; `time.Now()` is passed explicitly as
`now`.  The Go `map[string][]time.Time` is a function defaulting to the
empty list (how Go reads a missing key), and the Redis sorted set behind a
key is a list of (score, member) pairs with member-uniqueness maintained
by `zadd`. -/

namespace RateLimit

/-- `MemoryRateLimiter`: fixed limit, window length (seconds), and the
per-key timestamp lists. -/
structure MemoryRateLimiter where
  limit : Int
  window : Int
  requests : String → List Int

/-- `NewMemoryRateLimiter`: empty request map. -/
def NewMemoryRateLimiter (limit window : Int) : MemoryRateLimiter :=
  ⟨limit, window, fun _ => []⟩

/-- The expiry cleanup loop: keep requests with `req.After(windowStart)`,
i.e. strictly newer than `now - window`. -/
def pruneWindow (windowStart : Int) (l : List Int) : List Int :=
  l.filter (fun req => decide (windowStart < req))

/-- `MemoryRateLimiter.AllowN`: prune the key's list to the trailing
window, reject when `currentCount + n > limit` (recording only the prune),
otherwise append `n` copies of `now` and accept.  Returns the decision and
the updated limiter. -/
def memAllowN (m : MemoryRateLimiter) (key : String) (n : Int) (now : Int) :
    Bool × MemoryRateLimiter :=
  let windowStart := now - m.window
  let pruned := pruneWindow windowStart (m.requests key)
  let m1 : MemoryRateLimiter :=
    { m with requests := lupd m.requests key pruned }
  if m.limit < (pruned.length : Int) + n then (false, m1)
  else
    (true,
      { m1 with
        requests := lupd m1.requests key
          (pruned ++ List.replicate n.toNat now) })

/-- `MemoryRateLimiter.Allow` = `AllowN` with `n = 1`. -/
def memAllow (m : MemoryRateLimiter) (key : String) (now : Int) :
    Bool × MemoryRateLimiter :=
  memAllowN m key 1 now

/-- `MemoryRateLimiter.Reset`: delete the key's list. -/
def memReset (m : MemoryRateLimiter) (key : String) : MemoryRateLimiter :=
  { m with requests := lupd m.requests key [] }

/-- `MemoryRateLimiter.GetRemaining`: prune the key's list and return
`limit - len(validRequests)` (for a missing key Go returns `limit`, which
coincides with pruning the empty list). -/
def memGetRemaining (m : MemoryRateLimiter) (key : String) (now : Int) :
    Int × MemoryRateLimiter :=
  let windowStart := now - m.window
  let pruned := pruneWindow windowStart (m.requests key)
  (m.limit - (pruned.length : Int),
    { m with requests := lupd m.requests key pruned })

/-- A Redis sorted set: (score, member) pairs, members unique. -/
abbrev ZSet : Type := List (Int × String)

/-- `ZREMRANGEBYSCORE key 0 windowStart`: drop entries whose score lies in
`[0, windowStart]`. -/
def zremrangebyscore (lo hi : Int) (zs : ZSet) : ZSet :=
  List.filter (fun e => !(decide (lo ≤ e.1) && decide (e.1 ≤ hi))) zs

/-- `ZADD key score member`: update the score when the member exists,
otherwise append a new entry. -/
def zadd (score : Int) (member : String) (zs : ZSet) : ZSet :=
  if (List.any zs (fun e => e.2 = member)) then
    List.map (fun e => if e.2 = member then (score, member) else e) zs
  else zs ++ [(score, member)]

/-- The Lua loop `for i = 1, increment do ZADD key now now..':'..i end`. -/
def zaddLoop (now : Int) (increment : Nat) (zs : ZSet) : ZSet :=
  (List.range increment).foldl
    (fun acc i => zadd now (toString now ++ ":" ++ toString (i + 1)) acc) zs

/-- `RedisRateLimiter` parameters (the Redis client is the explicit
`ZSet`-per-key state below). -/
structure RedisRateLimiter where
  limit : Int
  window : Int
  pfx : String

/-- The Redis keyspace touched by the limiter. -/
abbrev RedisState : Type := String → ZSet

/-- `getKey`: `fmt.Sprintf("%s:%s", prefix, key)`. -/
def redisGetKey (r : RedisRateLimiter) (key : String) : String :=
  r.pfx ++ ":" ++ key

/-- `RedisRateLimiter.AllowN` / its Lua script: prune scores in
`[0, now - window]`, reject returning `{0, current}` when
`current + increment > limit`, otherwise `ZADD` the `increment` members
`now:i` and return `{1, current + increment}`.  (The trailing `EXPIRE` only
bounds the key's TTL and is not part of the keyspace model.)  Returns
((allowed, script count result), updated keyspace). -/
def redisAllowN (r : RedisRateLimiter) (st : RedisState) (key : String)
    (n : Int) (now : Int) : (Bool × Int) × RedisState :=
  let fullKey := redisGetKey r key
  let windowStart := now - r.window
  let pruned := zremrangebyscore 0 windowStart (st fullKey)
  let current : Int := pruned.length
  if r.limit < current + n then
    ((false, current), fun k => if k = fullKey then pruned else st k)
  else
    ((true, current + n),
      fun k => if k = fullKey then zaddLoop now n.toNat pruned else st k)

/-- `RedisRateLimiter.GetRemaining`: prune, compute `limit - current`, and
clamp a negative remainder to 0. -/
def redisGetRemaining (r : RedisRateLimiter) (st : RedisState)
    (key : String) (now : Int) : Int × RedisState :=
  let fullKey := redisGetKey r key
  let windowStart := now - r.window
  let pruned := zremrangebyscore 0 windowStart (st fullKey)
  let remaining := r.limit - (pruned.length : Int)
  ((if remaining < 0 then 0 else remaining),
    fun k => if k = fullKey then pruned else st k)

/-- `RateLimitConfig`. -/
structure RateLimitConfig where
  Enabled : Bool
  Typ : String
  Limit : Int
  Window : Int
  Pfx : String
  RedisAddr : String
  RedisDB : Int
  RedisPass : String

/-- The three limiter shapes `NewRateLimiter` can return; the Redis client
construction itself is connection plumbing outside the model. -/
inductive LimiterImpl where
  | noop : LimiterImpl
  | redis : Int → Int → String → LimiterImpl
  | memory : Int → Int → LimiterImpl
deriving DecidableEq

/-- `NewRateLimiter`: disabled config yields the no-op limiter; otherwise
dispatch on the `Type` field, rejecting unknown types. -/
def NewRateLimiter (c : RateLimitConfig) : Except String LimiterImpl :=
  if !c.Enabled then .ok .noop
  else
    match c.Typ with
    | "redis" => .ok (.redis c.Limit c.Window c.Pfx)
    | "memory" => .ok (.memory c.Limit c.Window)
    | t => .error ("unsupported rate limiter type: " ++ t)

/-- `NoOpRateLimiter.Allow`: `(true, nil)` for every key. -/
def noopAllow (key : String) : Bool × Option String :=
  let _ := key
  (true, none)

/-- `NoOpRateLimiter.AllowN`: `(true, nil)` for every key and count. -/
def noopAllowN (key : String) (count : Int) : Bool × Option String :=
  let _ := key
  let _ := count
  (true, none)

end RateLimit

/-- C6: with `Enabled = false`, `NewRateLimiter` returns the no-op
limiter, whose `Allow` and `AllowN` answer `(true, nil)` for every key and
count (the no-op limiter carries no state, so nothing is recorded). -/
theorem c6_disabled_config_yields_noop :
    ∀ (c : RateLimit.RateLimitConfig), c.Enabled = false →
      RateLimit.NewRateLimiter c = .ok .noop
      ∧ (∀ key n, RateLimit.noopAllowN key n = (true, none))
      ∧ (∀ key, RateLimit.noopAllow key = (true, none)) := by
  intro c h
  refine ⟨?_, fun key n => rfl, fun key => rfl⟩
  simp [RateLimit.NewRateLimiter, h]

/-- Witness for C6 at a concrete disabled configuration (whose `Type`
field would otherwise select the Redis limiter). -/
theorem c6_disabled_config_yields_noop_witness :
    RateLimit.NewRateLimiter
        ⟨false, "redis", 100, 60, "ratelimit", "localhost:6379", 0, ""⟩
      = .ok .noop
    ∧ RateLimit.noopAllowN "user1" 7 = (true, none) :=
  ⟨(c6_disabled_config_yields_noop
      ⟨false, "redis", 100, 60, "ratelimit", "localhost:6379", 0, ""⟩
      rfl).1,
   (c6_disabled_config_yields_noop
      ⟨false, "redis", 100, 60, "ratelimit", "localhost:6379", 0, ""⟩
      rfl).2.1 "user1" 7⟩

/-- C9: a rejected `MemoryRateLimiter.AllowN` call leaves the key's stored
list equal to the window-pruned old list (no new timestamps), leaves every
other key's list untouched, and changes no limiter parameter. -/
theorem c9_reject_records_nothing :
    ∀ (m : RateLimit.MemoryRateLimiter) (key : String) (n now : Int),
      (RateLimit.memAllowN m key n now).1 = false →
      (RateLimit.memAllowN m key n now).2.requests key
          = RateLimit.pruneWindow (now - m.window) (m.requests key)
      ∧ (∀ k, k ≠ key →
          (RateLimit.memAllowN m key n now).2.requests k = m.requests k)
      ∧ (RateLimit.memAllowN m key n now).2.limit = m.limit
      ∧ (RateLimit.memAllowN m key n now).2.window = m.window := by
  intro m key n now h
  by_cases hc : m.limit <
      ((RateLimit.pruneWindow (now - m.window) (m.requests key)).length : Int)
        + n
  · refine ⟨?_, fun k hk => ?_, ?_, ?_⟩
    · simp [RateLimit.memAllowN, hc, lupd]
    · simp [RateLimit.memAllowN, hc, lupd, hk]
    · simp [RateLimit.memAllowN, hc]
    · simp [RateLimit.memAllowN, hc]
  · simp [RateLimit.memAllowN, hc] at h

/-- Witness for C9: limit 1 with one live timestamp; an `AllowN` of 1 more
is rejected and the stored list stays exactly the pruned old list. -/
theorem c9_reject_records_nothing_witness :
    (RateLimit.memAllowN ⟨1, 60, fun k => if k = "k" then [100] else []⟩
        "k" 1 130).2.requests "k" = [100]
    ∧ (RateLimit.memAllowN ⟨1, 60, fun k => if k = "k" then [100] else []⟩
        "k" 1 130).2.requests "other" = [] := by
  have h := c9_reject_records_nothing
    ⟨1, 60, fun k => if k = "k" then [100] else []⟩ "k" 1 130 (by decide)
  exact ⟨by rw [h.1]; decide, by rw [h.2.1 "other" (by decide)]; decide⟩

/-- C1: the admission decision is as claimed for both implementations —
`AllowN` rejects exactly when the in-window count plus `n` exceeds the
limit — and the in-memory limiter then records `n` timestamped entries on
acceptance; but the Redis script's recording clause fails: two accepted
`AllowN(key, 1)` calls in the same Unix second (limit 5, window 60s,
second 100) leave the sorted set with a single member `"100:1"`, because
the second call's `ZADD` overwrites the first call's member instead of
adding a new entry. -/
theorem c1_allown_admission_and_recording :
    (∀ (m : RateLimit.MemoryRateLimiter) (key : String) (n now : Int),
      ((RateLimit.memAllowN m key n now).1 = false ↔
        m.limit <
          ((RateLimit.pruneWindow (now - m.window)
              (m.requests key)).length : Int) + n)
      ∧ ((RateLimit.memAllowN m key n now).1 = true →
          (RateLimit.memAllowN m key n now).2.requests key
            = RateLimit.pruneWindow (now - m.window) (m.requests key)
                ++ List.replicate n.toNat now))
    ∧ (∀ (r : RateLimit.RedisRateLimiter) (st : RateLimit.RedisState)
         (key : String) (n now : Int),
        (RateLimit.redisAllowN r st key n now).1.1 = false ↔
          r.limit <
            ((RateLimit.zremrangebyscore 0 (now - r.window)
                (st (RateLimit.redisGetKey r key))).length : Int) + n)
    ∧ ((RateLimit.redisAllowN ⟨5, 60, "rl"⟩ (fun _ => []) "k" 1 100).1.1
          = true
        ∧ (RateLimit.redisAllowN ⟨5, 60, "rl"⟩
            (RateLimit.redisAllowN ⟨5, 60, "rl"⟩ (fun _ => []) "k" 1
              100).2 "k" 1 100).1.1 = true
        ∧ ((RateLimit.redisAllowN ⟨5, 60, "rl"⟩
            (RateLimit.redisAllowN ⟨5, 60, "rl"⟩ (fun _ => []) "k" 1
              100).2 "k" 1 100).2 "rl:k").length = 1) := by
  refine ⟨fun m key n now => ⟨?_, ?_⟩, fun r st key n now => ?_,
    by decide, by decide, by decide⟩
  · by_cases hc : m.limit <
        ((RateLimit.pruneWindow (now - m.window)
            (m.requests key)).length : Int) + n
    · simp [RateLimit.memAllowN, hc]
    · simp [RateLimit.memAllowN, hc]
  · intro h
    by_cases hc : m.limit <
        ((RateLimit.pruneWindow (now - m.window)
            (m.requests key)).length : Int) + n
    · simp [RateLimit.memAllowN, hc] at h
    · simp [RateLimit.memAllowN, hc, lupd]
  · by_cases hc : r.limit <
        ((RateLimit.zremrangebyscore 0 (now - r.window)
            (st (RateLimit.redisGetKey r key))).length : Int) + n
    · simp [RateLimit.redisAllowN, hc]
    · simp [RateLimit.redisAllowN, hc]

/-- Witness for C1: a memory limiter at its limit rejects a further
request, and an accepted request appends its timestamps. -/
theorem c1_allown_admission_and_recording_witness :
    (RateLimit.memAllowN ⟨2, 60, fun _ => []⟩ "k" 3 100).1 = false
    ∧ (RateLimit.memAllowN ⟨2, 60, fun _ => []⟩ "k" 2 100).2.requests "k"
        = [100, 100] := by
  constructor
  · exact (c1_allown_admission_and_recording.1 ⟨2, 60, fun _ => []⟩
      "k" 3 100).1.mpr (by decide)
  · have h := (c1_allown_admission_and_recording.1 ⟨2, 60, fun _ => []⟩
      "k" 2 100).2 (by decide)
    rw [h]; decide

namespace RateLimit

/-- One client-visible admission call in a run of the memory limiter. -/
inductive RLOp where
  | allow : String → Int → RLOp
  | allowN : String → Int → Int → RLOp

/-- Execute one call against the limiter state. -/
def runOp (m : MemoryRateLimiter) : RLOp → MemoryRateLimiter
  | .allow key now => (memAllow m key now).2
  | .allowN key n now => (memAllowN m key n now).2

/-- Execute a call sequence from left to right. -/
def runOps (m : MemoryRateLimiter) (ops : List RLOp) : MemoryRateLimiter :=
  ops.foldl runOp m

/-- The call requests a non-negative batch size. -/
def opNonneg : RLOp → Prop
  | .allow _ _ => True
  | .allowN _ n _ => 0 ≤ n

instance : DecidablePred opNonneg := fun op =>
  match op with
  | .allow _ _ => .isTrue trivial
  | .allowN _ n _ => inferInstanceAs (Decidable (0 ≤ n))

/-- Per-key stored-timestamp count bounded by the limit. -/
def CountInv (m : MemoryRateLimiter) : Prop :=
  ∀ k, (((m.requests k).length : Int)) ≤ m.limit

theorem pruneWindow_length_le (ws : Int) (l : List Int) :
    (pruneWindow ws l).length ≤ l.length :=
  List.length_filter_le _ _

theorem memAllowN_limit_eq (m : MemoryRateLimiter) (key : String)
    (n now : Int) : (memAllowN m key n now).2.limit = m.limit := by
  by_cases hc : m.limit <
      ((pruneWindow (now - m.window) (m.requests key)).length : Int) + n <;>
    simp [memAllowN, hc]

theorem memAllowN_countInv (m : MemoryRateLimiter) (key : String)
    (n now : Int) (hn : 0 ≤ n) (h : CountInv m) :
    CountInv (memAllowN m key n now).2 := by
  intro k
  rw [memAllowN_limit_eq]
  have hp : ((pruneWindow (now - m.window) (m.requests key)).length : Int)
      ≤ ((m.requests key).length : Int) := by
    exact_mod_cast pruneWindow_length_le _ _
  by_cases hc : m.limit <
      ((pruneWindow (now - m.window) (m.requests key)).length : Int) + n
  · by_cases hk : k = key
    · subst hk
      simp only [memAllowN, hc, if_true, lupd, if_pos rfl]
      exact le_trans hp (h k)
    · simp only [memAllowN, hc, if_true, lupd, if_neg hk]
      exact h k
  · by_cases hk : k = key
    · subst hk
      simp only [memAllowN, hc, if_false, lupd, if_pos rfl]
      push_cast [List.length_append, List.length_replicate]
      rw [Int.toNat_of_nonneg hn]
      omega
    · simp only [memAllowN, hc, if_false, lupd, if_neg hk]
      exact h k

theorem runOp_limit_eq (m : MemoryRateLimiter) (op : RLOp) :
    (runOp m op).limit = m.limit := by
  cases op with
  | allow key now => exact memAllowN_limit_eq m key 1 now
  | allowN key n now => exact memAllowN_limit_eq m key n now

theorem runOp_countInv (m : MemoryRateLimiter) (op : RLOp)
    (hop : opNonneg op) (h : CountInv m) : CountInv (runOp m op) := by
  cases op with
  | allow key now => exact memAllowN_countInv m key 1 now (by omega) h
  | allowN key n now => exact memAllowN_countInv m key n now hop h

theorem runOps_limit_eq (ops : List RLOp) :
    ∀ m : MemoryRateLimiter, (runOps m ops).limit = m.limit := by
  induction ops with
  | nil => intro m; rfl
  | cons op rest ih =>
    intro m
    show (runOps (runOp m op) rest).limit = m.limit
    rw [ih, runOp_limit_eq]

theorem runOps_countInv (ops : List RLOp) :
    ∀ m : MemoryRateLimiter, CountInv m →
      (∀ op ∈ ops, opNonneg op) → CountInv (runOps m ops) := by
  induction ops with
  | nil => intro m h _; exact h
  | cons op rest ih =>
    intro m h hops
    exact ih (runOp m op)
      (runOp_countInv m op (hops op (List.mem_cons_self op rest)) h)
      (fun o ho => hops o (List.mem_cons_of_mem op ho))

end RateLimit

/-- C10: starting from a fresh memory limiter with limit `L ≥ 0`, after
any sequence of `Allow`/`AllowN` calls with non-negative `n` the stored
timestamp count of every key stays at most `L`, so `GetRemaining` is never
negative; and the Redis `GetRemaining` clamps a negative remainder to 0
for every keyspace. -/
theorem c10_count_bounded_and_remaining_nonneg :
    ∀ (L W : Int) (ops : List RateLimit.RLOp), 0 ≤ L →
      (∀ op ∈ ops, RateLimit.opNonneg op) →
      (∀ key, (((RateLimit.runOps (RateLimit.NewMemoryRateLimiter L W)
          ops).requests key).length : Int) ≤ L)
      ∧ (∀ key now, 0 ≤ (RateLimit.memGetRemaining
          (RateLimit.runOps (RateLimit.NewMemoryRateLimiter L W) ops)
          key now).1)
      ∧ (∀ (r : RateLimit.RedisRateLimiter) (st : RateLimit.RedisState)
           (key : String) (now : Int),
          0 ≤ (RateLimit.redisGetRemaining r st key now).1) := by
  intro L W ops hL hops
  have hfresh : RateLimit.CountInv (RateLimit.NewMemoryRateLimiter L W) := by
    intro k
    simp [RateLimit.NewMemoryRateLimiter, hL]
  have hinv := RateLimit.runOps_countInv ops _ hfresh hops
  have hlim := RateLimit.runOps_limit_eq ops
    (RateLimit.NewMemoryRateLimiter L W)
  have hlimL : (RateLimit.runOps (RateLimit.NewMemoryRateLimiter L W)
      ops).limit = L := hlim
  refine ⟨fun key => ?_, fun key now => ?_, fun r st key now => ?_⟩
  · have := hinv key
    rw [hlimL] at this
    exact this
  · have hcount := hinv key
    rw [hlimL] at hcount
    have hp : ((RateLimit.pruneWindow
        (now - (RateLimit.runOps (RateLimit.NewMemoryRateLimiter L W)
          ops).window)
        ((RateLimit.runOps (RateLimit.NewMemoryRateLimiter L W)
          ops).requests key)).length : Int)
        ≤ (((RateLimit.runOps (RateLimit.NewMemoryRateLimiter L W)
          ops).requests key).length : Int) := by
      exact_mod_cast RateLimit.pruneWindow_length_le _ _
    simp only [RateLimit.memGetRemaining, hlimL]
    omega
  · simp only [RateLimit.redisGetRemaining]
    split <;> omega

/-- Witness for C10: limit 2, three calls (the last rejected); the key's
count stays at 2 and both remaining counters are non-negative. -/
theorem c10_count_bounded_and_remaining_nonneg_witness :
    (((RateLimit.runOps (RateLimit.NewMemoryRateLimiter 2 60)
        [RateLimit.RLOp.allowN "a" 2 10, RateLimit.RLOp.allow "a" 11,
         RateLimit.RLOp.allowN "a" 1 12]).requests "a").length : Int) ≤ 2
    ∧ 0 ≤ (RateLimit.memGetRemaining
        (RateLimit.runOps (RateLimit.NewMemoryRateLimiter 2 60)
          [RateLimit.RLOp.allowN "a" 2 10, RateLimit.RLOp.allow "a" 11,
           RateLimit.RLOp.allowN "a" 1 12]) "a" 12).1
    ∧ 0 ≤ (RateLimit.redisGetRemaining ⟨2, 60, "rl"⟩
        (fun _ => [(10, "10:1"), (10, "10:2"), (11, "11:1")]) "a" 12).1 := by
  have h := c10_count_bounded_and_remaining_nonneg 2 60
    [RateLimit.RLOp.allowN "a" 2 10, RateLimit.RLOp.allow "a" 11,
     RateLimit.RLOp.allowN "a" 1 12] (by decide) (by decide)
  exact ⟨h.1 "a", h.2.1 "a" 12,
    h.2.2 ⟨2, 60, "rl"⟩ (fun _ => [(10, "10:1"), (10, "10:2"), (11, "11:1")])
      "a" 12⟩

/-! ## gRPC client manager (src/grpc/client.go)

`createConnection` (dialing, TLS loading, keep-alive options) is the
abstract parameter `create : ClientConfig → Except String GrpcConn`; a
connection carries its identity and the string form of its
`GetState()`. -/

namespace Grpc

/-- The fields of `ClientConfig` consulted by the manager's map logic;
dialing options are folded into the abstract `create`. -/
structure ClientConfig where
  Target : String
deriving DecidableEq

/-- A `*grpc.ClientConn`: identity plus `GetState().String()`. -/
structure GrpcConn where
  connId : Nat
  stateStr : String
deriving DecidableEq

/-- `ClientManager`: named configurations and named cached connections. -/
structure ClientManager where
  connections : String → Option GrpcConn
  configs : String → Option ClientConfig

/-- `NewClientManager`: both maps empty. -/
def NewClientManager : ClientManager :=
  ⟨fun _ => none, fun _ => none⟩

/-- `ClientManager.AddClient`: store (overwrite) the configuration under
the name. -/
def AddClient (cm : ClientManager) (name : String) (config : ClientConfig) :
    ClientManager :=
  { cm with configs := mupd cm.configs name (some config) }

/-- Errors surfaced by `GetClient`. -/
inductive ClientErr where
  | configNotFound : String → ClientErr
  | createFailed : String → String → ClientErr
deriving DecidableEq

/-- `ClientManager.GetClient`: error when no configuration is stored;
otherwise return a cached connection whose state is not `"SHUTDOWN"`, and
in the remaining cases (no cached connection, or a shut-down one, which is
first deleted) create a connection, cache it and return it. -/
def GetClient (create : ClientConfig → Except String GrpcConn)
    (cm : ClientManager) (name : String) :
    Except ClientErr (GrpcConn × ClientManager) :=
  match cm.configs name with
  | none => .error (.configNotFound name)
  | some config =>
    match cm.connections name with
    | some conn =>
      if conn.stateStr ≠ "SHUTDOWN" then .ok (conn, cm)
      else
        match create config with
        | .error e => .error (.createFailed name e)
        | .ok c =>
          .ok (c,
            { cm with
              connections :=
                mupd (mupd cm.connections name none) name (some c) })
    | none =>
      match create config with
      | .error e => .error (.createFailed name e)
      | .ok c =>
        .ok (c, { cm with connections := mupd cm.connections name (some c) })

end Grpc

/-- C5: `GetClient` fails exactly on a missing configuration or a failing
connection creation; with a configuration present it creates the
connection lazily on first use, caches it under the name, and returns the
cached connection unchanged (with unchanged manager state) while its state
is not `"SHUTDOWN"`. -/
theorem c5_get_client_lifecycle :
    (∀ (create : Grpc.ClientConfig → Except String Grpc.GrpcConn)
       (cm : Grpc.ClientManager) (name : String),
       cm.configs name = none →
       Grpc.GetClient create cm name = .error (.configNotFound name))
    ∧ (∀ (create : Grpc.ClientConfig → Except String Grpc.GrpcConn)
         (cm : Grpc.ClientManager) (name : String) (e : Grpc.ClientErr),
         Grpc.GetClient create cm name = .error e →
         cm.configs name = none
         ∨ ∃ cfg msg, cm.configs name = some cfg
             ∧ create cfg = .error msg)
    ∧ (∀ (create : Grpc.ClientConfig → Except String Grpc.GrpcConn)
         (cm : Grpc.ClientManager) (name : String) (cfg : Grpc.ClientConfig)
         (c : Grpc.GrpcConn),
         cm.configs name = some cfg →
         cm.connections name = none →
         create cfg = .ok c →
         ∃ cm', Grpc.GetClient create cm name = .ok (c, cm')
           ∧ cm'.connections name = some c
           ∧ cm'.configs = cm.configs)
    ∧ (∀ (create : Grpc.ClientConfig → Except String Grpc.GrpcConn)
         (cm : Grpc.ClientManager) (name : String) (cfg : Grpc.ClientConfig)
         (conn : Grpc.GrpcConn),
         cm.configs name = some cfg →
         cm.connections name = some conn →
         conn.stateStr ≠ "SHUTDOWN" →
         Grpc.GetClient create cm name = .ok (conn, cm)) := by
  refine ⟨fun create cm name h => ?_, fun create cm name e h => ?_,
    fun create cm name cfg c hcfg hconn hcreate => ?_,
    fun create cm name cfg conn hcfg hconn hstate => ?_⟩
  · simp [Grpc.GetClient, h]
  · rcases hcfg : cm.configs name with _ | cfg
    · exact Or.inl rfl
    · refine Or.inr ?_
      rcases hconn : cm.connections name with _ | conn
      · rcases hcreate : create cfg with msg | c
        · exact ⟨cfg, msg, rfl, hcreate⟩
        · simp [Grpc.GetClient, hcfg, hconn, hcreate] at h
      · by_cases hstate : conn.stateStr = "SHUTDOWN"
        · rcases hcreate : create cfg with msg | c
          · exact ⟨cfg, msg, rfl, hcreate⟩
          · simp [Grpc.GetClient, hcfg, hconn, hstate, hcreate] at h
        · simp [Grpc.GetClient, hcfg, hconn, hstate] at h
  · refine ⟨{ cm with
        connections := mupd cm.connections name (some c) }, ?_, ?_, rfl⟩
    · simp [Grpc.GetClient, hcfg, hconn, hcreate]
    · simp [mupd]
  · simp [Grpc.GetClient, hcfg, hconn, hstate]

/-- Witness for C5: a missing name errors; a configured name dials once,
caches, and is then served from the cache unchanged. -/
theorem c5_get_client_lifecycle_witness :
    Grpc.GetClient (fun cfg => .ok ⟨7, cfg.Target⟩) Grpc.NewClientManager
        "users" = .error (.configNotFound "users")
    ∧ ∃ cm', Grpc.GetClient (fun _ => .ok ⟨7, "READY"⟩)
          (Grpc.AddClient Grpc.NewClientManager "users" ⟨"u:443"⟩) "users"
          = .ok (⟨7, "READY"⟩, cm')
        ∧ cm'.connections "users" = some ⟨7, "READY"⟩
        ∧ Grpc.GetClient (fun _ => .ok ⟨8, "READY"⟩) cm' "users"
            = .ok (⟨7, "READY"⟩, cm') := by
  refine ⟨c5_get_client_lifecycle.1 _ Grpc.NewClientManager "users" rfl, ?_⟩
  obtain ⟨cm', h1, h2, h3⟩ := c5_get_client_lifecycle.2.2.1
    (fun _ => .ok ⟨7, "READY"⟩)
    (Grpc.AddClient Grpc.NewClientManager "users" ⟨"u:443"⟩) "users"
    ⟨"u:443"⟩ ⟨7, "READY"⟩ (by simp [Grpc.AddClient, mupd]) rfl rfl
  refine ⟨cm', h1, h2, ?_⟩
  exact c5_get_client_lifecycle.2.2.2 (fun _ => .ok ⟨8, "READY"⟩) cm'
    "users" ⟨"u:443"⟩ ⟨7, "READY"⟩
    (by rw [h3]; simp [Grpc.AddClient, mupd]) h2 (by decide)

/-- C7: adding a client under an existing name overwrites the stored
configuration (most recent write wins), and a subsequent `GetClient` for
that name consults the most recently written configuration. -/
theorem c7_add_client_overwrites :
    ∀ (cm : Grpc.ClientManager) (name : String)
      (c1 c2 : Grpc.ClientConfig)
      (create : Grpc.ClientConfig → Except String Grpc.GrpcConn)
      (c : Grpc.GrpcConn),
      (Grpc.AddClient (Grpc.AddClient cm name c1) name c2).configs name
          = some c2
      ∧ ((Grpc.AddClient (Grpc.AddClient cm name c1) name c2).connections
            name = none →
          create c2 = .ok c →
          ∃ cm', Grpc.GetClient create
              (Grpc.AddClient (Grpc.AddClient cm name c1) name c2) name
              = .ok (c, cm')) := by
  intro cm name c1 c2 create c
  constructor
  · simp [Grpc.AddClient, mupd]
  · intro hconn hcreate
    simp only [Grpc.AddClient] at hconn
    refine ⟨{ Grpc.AddClient (Grpc.AddClient cm name c1) name c2 with
      connections := mupd (Grpc.AddClient (Grpc.AddClient cm name c1)
        name c2).connections name (some c) }, ?_⟩
    simp [Grpc.GetClient, Grpc.AddClient, mupd, hconn, hcreate]

/-- Witness for C7: two `AddClient` calls under one name; the second
configuration is stored and is the one dialed. -/
theorem c7_add_client_overwrites_witness :
    (Grpc.AddClient (Grpc.AddClient Grpc.NewClientManager "svc" ⟨"old:1"⟩)
        "svc" ⟨"new:2"⟩).configs "svc" = some ⟨"new:2"⟩
    ∧ ∃ cm', Grpc.GetClient (fun cfg => .ok ⟨1, cfg.Target⟩)
        (Grpc.AddClient (Grpc.AddClient Grpc.NewClientManager "svc"
          ⟨"old:1"⟩) "svc" ⟨"new:2"⟩) "svc" = .ok (⟨1, "new:2"⟩, cm') := by
  have h := c7_add_client_overwrites Grpc.NewClientManager "svc" ⟨"old:1"⟩
    ⟨"new:2"⟩ (fun cfg => .ok ⟨1, cfg.Target⟩) ⟨1, "new:2"⟩
  exact ⟨h.1, h.2 rfl rfl⟩

/-! ## JSON flattening (src/unnamed/part_000, loadLanguageFile /
flattenTranslations)

`loadLanguageFile` parses the file into `map[string]interface{}` and calls
`flattenTranslations("", nested, t.translations[lang])`.  The parsed value
is embedded below; a non-string, non-object leaf is carried together with
its `fmt.Sprintf("%v", ...)` rendering, and an object is its member list
in the iteration order Go happens to use. -/

namespace I18n

mutual
/-- A parsed JSON member value. -/
inductive Jv where
  | str : String → Jv
  | prim : String → Jv
  | obj : JObj → Jv
/-- The member list of a parsed JSON object. -/
inductive JObj where
  | nil : JObj
  | cons : String → Jv → JObj → JObj
end

/-- The `fullKey` computation: the child key alone under an empty prefix,
otherwise the prefix, a `'.'`, and the child key. -/
def fullKeyOf (pfx k : String) : String :=
  if pfx = "" then k else pfx ++ "." ++ k

mutual
/-- The `switch` body of `flattenTranslations` for one member value at
its full key: store a string leaf verbatim, store another leaf's
rendering, recurse into an object under the extended prefix. -/
def flattenVal : String → Jv → (String → Option String) →
    (String → Option String)
  | fk, .str s, flat => mupd flat fk (some s)
  | fk, .prim r, flat => mupd flat fk (some r)
  | fk, .obj fs, flat => flattenObj fk fs flat
/-- `translator.flattenTranslations`: fold every member into the flat
table. -/
def flattenObj : String → JObj → (String → Option String) →
    (String → Option String)
  | _, .nil, flat => flat
  | pfx, .cons k v rest, flat =>
    flattenObj pfx rest (flattenVal (fullKeyOf pfx k) v flat)
end

/-- Source name for `flattenObj`. -/
abbrev flattenTranslations := flattenObj

mutual
/-- Flat-table keys of all leaves below one member value. -/
def leafKeysVal : String → Jv → List String
  | fk, .str _ => [fk]
  | fk, .prim _ => [fk]
  | fk, .obj fs => leafKeysObj fk fs
/-- Flat-table keys of all leaves of an object, in member order. -/
def leafKeysObj : String → JObj → List String
  | _, .nil => []
  | pfx, .cons k v rest =>
    leafKeysVal (fullKeyOf pfx k) v ++ leafKeysObj pfx rest
end

/-- `LeafAt o p v`: following the member names `p` from object `o`
reaches a leaf whose stored string is `v`. -/
inductive LeafAt : JObj → List String → String → Prop where
  | head_str : ∀ {k s rest}, LeafAt (.cons k (.str s) rest) [k] s
  | head_prim : ∀ {k r rest}, LeafAt (.cons k (.prim r) rest) [k] r
  | head_obj : ∀ {k fs rest p v}, LeafAt fs p v →
      LeafAt (.cons k (.obj fs) rest) (k :: p) v
  | tail : ∀ {e ev rest p v}, LeafAt rest p v →
      LeafAt (.cons e ev rest) p v

/-- The key the code builds along a path, starting from a prefix. -/
def keyFrom : String → List String → String
  | pfx, [] => pfx
  | pfx, k :: p => keyFrom (fullKeyOf pfx k) p

/-- Modelled from the spec: "the dotted path of the member names leading
to it" — the names joined with `'.'`. -/
def dottedKey : List String → String
  | [] => ""
  | [k] => k
  | k :: p => k ++ "." ++ dottedKey p

end I18n

namespace I18n

mutual
theorem flattenVal_frame : ∀ (fk : String) (v : Jv)
    (flat : String → Option String) (x : String),
    x ∉ leafKeysVal fk v → flattenVal fk v flat x = flat x
  | fk, .str s, flat, x, hx => by
    have hne : x ≠ fk := by simpa [leafKeysVal] using hx
    simp [flattenVal, mupd, hne]
  | fk, .prim r, flat, x, hx => by
    have hne : x ≠ fk := by simpa [leafKeysVal] using hx
    simp [flattenVal, mupd, hne]
  | fk, .obj fs, flat, x, hx =>
    flattenObj_frame fk fs flat x (by simpa [leafKeysVal] using hx)
theorem flattenObj_frame : ∀ (pfx : String) (o : JObj)
    (flat : String → Option String) (x : String),
    x ∉ leafKeysObj pfx o → flattenObj pfx o flat x = flat x
  | _, .nil, _, _, _ => rfl
  | pfx, .cons k v rest, flat, x, hx =>
    Eq.trans
      (flattenObj_frame pfx rest (flattenVal (fullKeyOf pfx k) v flat) x
        (fun h => hx (by simp [leafKeysObj]; exact Or.inr h)))
      (flattenVal_frame (fullKeyOf pfx k) v flat x
        (fun h => hx (by simp [leafKeysObj]; exact Or.inl h)))
end

theorem keyFrom_mem_leafKeys {o : JObj} {p : List String} {v : String}
    (h : LeafAt o p v) : ∀ pfx, keyFrom pfx p ∈ leafKeysObj pfx o := by
  induction h with
  | head_str => intro pfx; simp [keyFrom, leafKeysObj, leafKeysVal]
  | head_prim => intro pfx; simp [keyFrom, leafKeysObj, leafKeysVal]
  | @head_obj k fs rest p v _ ih =>
    intro pfx
    simp only [keyFrom, leafKeysObj, leafKeysVal, List.mem_append]
    exact Or.inl (ih (fullKeyOf pfx k))
  | @tail e ev rest p v _ ih =>
    intro pfx
    simp only [leafKeysObj, List.mem_append]
    exact Or.inr (ih pfx)

theorem flattenObj_stores_leaf {o : JObj} {p : List String} {v : String}
    (h : LeafAt o p v) : ∀ (pfx : String) (flat : String → Option String),
    (leafKeysObj pfx o).Nodup →
    flattenObj pfx o flat (keyFrom pfx p) = some v := by
  induction h with
  | @head_str k s rest =>
    intro pfx flat hnd
    have hdisj := List.disjoint_of_nodup_append
      (by simpa [leafKeysObj, leafKeysVal] using hnd :
        ([fullKeyOf pfx k] ++ leafKeysObj pfx rest).Nodup)
    have hkey : keyFrom pfx [k] = fullKeyOf pfx k := rfl
    show flattenObj pfx rest (flattenVal (fullKeyOf pfx k) (.str s) flat)
        (keyFrom pfx [k]) = some s
    rw [hkey, flattenObj_frame pfx rest _ _
      (hdisj (List.mem_singleton_self _))]
    simp [flattenVal, mupd]
  | @head_prim k r rest =>
    intro pfx flat hnd
    have hdisj := List.disjoint_of_nodup_append
      (by simpa [leafKeysObj, leafKeysVal] using hnd :
        ([fullKeyOf pfx k] ++ leafKeysObj pfx rest).Nodup)
    have hkey : keyFrom pfx [k] = fullKeyOf pfx k := rfl
    show flattenObj pfx rest (flattenVal (fullKeyOf pfx k) (.prim r) flat)
        (keyFrom pfx [k]) = some r
    rw [hkey, flattenObj_frame pfx rest _ _
      (hdisj (List.mem_singleton_self _))]
    simp [flattenVal, mupd]
  | @head_obj k fs rest p v hleaf ih =>
    intro pfx flat hnd
    rw [show leafKeysObj pfx (.cons k (.obj fs) rest)
        = leafKeysObj (fullKeyOf pfx k) fs ++ leafKeysObj pfx rest
      from rfl] at hnd
    have hdisj := List.disjoint_of_nodup_append hnd
    have hmem := keyFrom_mem_leafKeys hleaf (fullKeyOf pfx k)
    show flattenObj pfx rest
        (flattenVal (fullKeyOf pfx k) (.obj fs) flat)
        (keyFrom pfx (k :: p)) = some v
    have hkey : keyFrom pfx (k :: p) = keyFrom (fullKeyOf pfx k) p := rfl
    rw [hkey, flattenObj_frame pfx rest _ _ (hdisj hmem)]
    exact ih (fullKeyOf pfx k) flat (List.nodup_append.mp hnd).1
  | @tail e ev rest p v _ ih =>
    intro pfx flat hnd
    rw [show leafKeysObj pfx (.cons e ev rest)
        = leafKeysVal (fullKeyOf pfx e) ev ++ leafKeysObj pfx rest
      from rfl] at hnd
    exact ih pfx (flattenVal (fullKeyOf pfx e) ev flat)
      (List.nodup_append.mp hnd).2.1

theorem append_dot_ne_empty (a b : String) : a ++ "." ++ b ≠ "" := by
  intro h
  have h2 := congrArg String.data h
  simp [String.data_append] at h2

theorem keyFrom_eq_dottedKey (p : List String) :
    ∀ pfx : String, pfx ≠ "" → keyFrom pfx p = dottedKey (pfx :: p) := by
  induction p with
  | nil => intro pfx _; simp [keyFrom, dottedKey]
  | cons k p ih =>
    intro pfx h
    have hrw := ih (pfx ++ "." ++ k) (append_dot_ne_empty pfx k)
    show keyFrom (fullKeyOf pfx k) p = _
    rw [fullKeyOf, if_neg h, hrw]
    cases p with
    | nil => simp [dottedKey]
    | cons q qs => simp [dottedKey, String.append_assoc]

theorem keyFrom_empty_prefix (p : List String) (k : String) (hk : k ≠ "") :
    keyFrom "" (k :: p) = dottedKey (k :: p) := by
  show keyFrom (fullKeyOf "" k) p = _
  rw [fullKeyOf, if_pos rfl]
  exact keyFrom_eq_dottedKey p k hk

theorem LeafAt_ne_nil {o : JObj} {p : List String} {v : String}
    (h : LeafAt o p v) : p ≠ [] := by
  induction h with
  | head_str => simp
  | head_prim => simp
  | head_obj => simp
  | tail _ ih => exact ih

end I18n

/-- C3 counterexample: two concrete nested objects on which a leaf is not
stored under the dotted path of the member names leading to it.  With an
empty member name, `{"": {"x": "v"}}` stores the leaf under `"x"`, not
under the dotted path `".x"` (the empty prefix is absorbed).  With
colliding flattened keys, `{"a.b": "x", "a": {"b": "y"}}` leaves the first
leaf unretrievable: key `"a.b"` holds `"y"`, the later write. -/
theorem c3_flatten_dotted_counterexample :
    (I18n.LeafAt
        (.cons "" (I18n.Jv.obj (.cons "x" (I18n.Jv.str "v") .nil)) .nil)
        ["", "x"] "v"
      ∧ I18n.dottedKey ["", "x"] = ".x"
      ∧ I18n.flattenTranslations ""
          (.cons "" (I18n.Jv.obj (.cons "x" (I18n.Jv.str "v") .nil)) .nil)
          (fun _ => none) ".x" = none
      ∧ I18n.flattenTranslations ""
          (.cons "" (I18n.Jv.obj (.cons "x" (I18n.Jv.str "v") .nil)) .nil)
          (fun _ => none) "x" = some "v")
    ∧ (I18n.LeafAt
        (.cons "a.b" (I18n.Jv.str "x")
          (.cons "a" (I18n.Jv.obj (.cons "b" (I18n.Jv.str "y") .nil))
            .nil))
        ["a.b"] "x"
      ∧ I18n.dottedKey ["a.b"] = "a.b"
      ∧ I18n.flattenTranslations ""
          (.cons "a.b" (I18n.Jv.str "x")
            (.cons "a" (I18n.Jv.obj (.cons "b" (I18n.Jv.str "y") .nil))
              .nil))
          (fun _ => none) "a.b" = some "y") :=
  ⟨⟨I18n.LeafAt.head_obj I18n.LeafAt.head_str, rfl, rfl, rfl⟩,
   ⟨I18n.LeafAt.head_str, rfl, rfl⟩⟩

/-- C3 (amended): when every member name along the leaf's path is
nonempty and distinct leaves flatten to distinct keys, every leaf is
stored under the dotted path of the member names leading to it — string
leaves verbatim and other leaves as their rendering (both are the `v` a
`LeafAt` derivation carries). -/
theorem c3_flatten_nested_dotted_amended :
    ∀ (o : I18n.JObj) (p : List String) (v : String)
      (flat : String → Option String),
      I18n.LeafAt o p v →
      (∀ k ∈ p, k ≠ "") →
      (I18n.leafKeysObj "" o).Nodup →
      I18n.flattenTranslations "" o flat (I18n.dottedKey p) = some v := by
  intro o p v flat h hne hnd
  cases p with
  | nil => exact absurd rfl (I18n.LeafAt_ne_nil h)
  | cons k p =>
    rw [← I18n.keyFrom_empty_prefix p k (hne k (List.mem_cons_self k p))]
    exact I18n.flattenObj_stores_leaf h "" flat hnd

/-- Witness for amended C3: `{"a": {"b": "v"}, "c": "w"}` stores the leaf
`"v"` under `"a.b"`. -/
theorem c3_flatten_nested_dotted_amended_witness :
    I18n.flattenTranslations ""
        (.cons "a" (I18n.Jv.obj (.cons "b" (I18n.Jv.str "v") .nil))
          (.cons "c" (I18n.Jv.str "w") .nil))
        (fun _ => none) "a.b" = some "v" := by
  have h := c3_flatten_nested_dotted_amended
    (.cons "a" (I18n.Jv.obj (.cons "b" (I18n.Jv.str "v") .nil))
      (.cons "c" (I18n.Jv.str "w") .nil))
    ["a", "b"] "v" (fun _ => none)
    (I18n.LeafAt.head_obj I18n.LeafAt.head_str) (by decide) (by decide)
  exact h

end VgoKit
